import Mathlib

/-!
Shallow embedding of the Agents repository (imartemy1524/Agents).

The verified core is detekt.py: the WhisperStream streaming-text
reconstruction and utterance-segmentation engine (buffer reconstruction in
_run_processing_loop, gating and tokenization in _process_buffer, utterance
assembly in _handle_words), together with llm_agent.py's
LLMAgent.sendUserMessage conversation-history discipline.

Python strings are modelled as lists of characters; Python str.split,
str.replace, in, rfind-based slicing, strip, lower and isalnum are modelled
by the executable functions below (ASCII model of isalnum and lower, which
covers every string constant of the program).
-/

namespace Agents

/-- Characters of a Python string. -/
abbrev Str := List Char

/-- Worker for Python str.split with a nonempty separator c :: r: scan left to
right and cut at each non-overlapping occurrence of the separator. The fuel
argument only forces termination; any fuel of at least the length of the
string gives the fully evaluated result. -/
def splitGo (c : Char) (r : Str) : Nat → Str → List Str
  | _, [] => [[]]
  | 0, s => [s]
  | fuel + 1, a :: rest =>
    if (c :: r).isPrefixOf (a :: rest) then
      [] :: splitGo c r fuel (rest.drop r.length)
    else
      match splitGo c r fuel rest with
      | [] => [[a]]
      | h :: t => (a :: h) :: t

/-- Python s.split(sep) for a nonempty separator. Separators in this program
are never empty (Python would raise ValueError on an empty one). -/
def splitStrOn (sep s : Str) : List Str :=
  match sep with
  | [] => [s]
  | c :: r => splitGo c r s.length s

/-- Python substring test (sep in s): for a nonempty separator it holds exactly
when split yields at least two parts; for the empty string Python returns
True. -/
def containsStr (sep s : Str) : Bool :=
  sep.isEmpty || decide (1 < (splitStrOn sep s).length)

/-- Python s.split(sep)[-1]: the text after the last occurrence of sep, and s
itself when sep does not occur. -/
def afterLastStr (sep s : Str) : Str := (splitStrOn sep s).getLastD []

/-- Python s.replace(old, new) for nonempty old: split on old and rejoin the
parts with new. -/
def replaceAll (old new s : Str) : Str := List.intercalate new (splitStrOn old s)

/-- Python s[:s.rfind(c)] when c occurs in s, and the empty string when rfind
returns -1: the text strictly before the last occurrence of c. -/
def beforeLastChar (c : Char) (s : Str) : Str :=
  (((s.reverse).dropWhile (fun x => x != c)).drop 1).reverse

/-- The text after the last occurrence of c, and all of s when c is absent. -/
def afterLastChar (c : Char) (s : Str) : Str :=
  ((s.reverse).takeWhile (fun x => x != c)).reverse

/-- Python str.lower, ASCII model. -/
def lowerStr (s : Str) : Str := s.map Char.toLower

/-- The whitespace characters of Python str.strip and str.isspace. -/
def isPySpace (c : Char) : Bool :=
  c == ' ' || c == '\t' || c == '\n' || c == '\r' || c == '\x0b' || c == '\x0c'

/-- Python str.strip(): drop whitespace from both ends. -/
def stripStr (s : Str) : Str :=
  (((s.dropWhile isPySpace).reverse).dropWhile isPySpace).reverse

/-- detekt.py line 9: the Sentinel token substituted for noise annotations. -/
def BLANK_AUDIO : Str := "[BLANK_AUDIO]".toList

/-- detekt.py line 193: the readiness marker searched for in the buffer. -/
def READY_MARKER : Str := "[Start speaking]".toList

/-- detekt.normalize_word (lines 12-18): keep alphanumeric characters and
lowercase the result (ASCII model of Python isalnum and lower). -/
def normalize_word (w : Str) : Str := (w.filter Char.isAlphanum).map Char.toLower

/-- detekt._process_buffer lines 206-211: the chain of replace calls mapping
each recognized noise annotation to BLANK_AUDIO, applied in source order. -/
def replaceNoise (s : Str) : Str :=
  replaceAll "(sighs)".toList BLANK_AUDIO
    (replaceAll "(whooshing)".toList BLANK_AUDIO
      (replaceAll "[ Silence ]".toList BLANK_AUDIO
        (replaceAll "[typing sounds]".toList BLANK_AUDIO
          (replaceAll "(keyboard clicking)".toList BLANK_AUDIO
            (replaceAll "[Start speaking]".toList BLANK_AUDIO s)))))

/-- The mutable detection state of WhisperStream: the token accumulation buffer
self.bob and the flags self._ready and self.activated. -/
structure StreamState where
  bob : Str
  ready : Bool
  activated : Bool
deriving DecidableEq

/-- detekt._process_buffer line 213: the pieces of a buffer split on single
spaces whose normalization is nonempty (Python truthiness of the normalized
string). Kept pieces retain their original text. -/
def tokensOf (s : Str) : List Str :=
  (splitStrOn [' '] s).filter (fun i => !(normalize_word i).isEmpty)

/-- detekt._handle_words (lines 217-224), with the mutation of self.bob made
explicit: when the boundary rule fires, clear bob and return the space-join of
the non-Sentinel words; otherwise leave the state alone and return nothing.
The Python test any(i for i in words if i != BLANK_AUDIO) holds exactly when
some word differs from BLANK_AUDIO and is truthy, that is nonempty. -/
def handle_words (s : StreamState) (words : List Str) : StreamState × Option Str :=
  if 2 ≤ words.length ∧ words.getLastD [] = BLANK_AUDIO ∧
      (∃ w ∈ words, w ≠ BLANK_AUDIO ∧ w ≠ []) then
    ({ s with bob := [] }, some (List.intercalate [' '] (words.filter (fun i => i != BLANK_AUDIO))))
  else (s, none)

/-- detekt._process_buffer lines 206-214: replace noise annotations in bob,
store the replaced buffer back into self.bob, tokenize, and hand the words to
_handle_words. -/
def tokenize_and_handle (s : StreamState) : StreamState × Option Str :=
  let bob2 := replaceNoise s.bob
  handle_words { s with bob := bob2 } (tokensOf bob2)

/-- detekt._process_buffer (lines 190-214). The phrase argument is
self.activation_phrase, already lowercased by the constructor (line 45). -/
def process_buffer (phrase : Str) (s : StreamState) : StreamState × Option Str :=
  if containsStr READY_MARKER s.bob = true ∧ s.ready = false then
    ({ s with ready := true, bob := [] }, none)
  else if s.ready = false then (s, none)
  else if s.activated = false then
    if containsStr phrase (lowerStr s.bob) = true then
      tokenize_and_handle
        { s with activated := true, bob := afterLastStr phrase (lowerStr s.bob) }
    else (s, none)
  else tokenize_and_handle s

/-- detekt._run_processing_loop lines 153-160: overwrite the current line from
the last carriage-return boundary of the buffer (or start a fresh line when
the buffer has no carriage return, where rfind returns -1 and the result is
the carriage return followed by the part). -/
def crStep (buf part : Str) : Str := beforeLastChar '\r' buf ++ '\r' :: part

/-- detekt._run_processing_loop lines 143-160: the enumerate loop over the
parts of a chunk split on carriage returns. The first part is appended unless
the buffer is empty and the chunk starts with a carriage return; the first
part also overwrites when the chunk starts with a carriage return; every
later part overwrites. -/
def applyCR (buf chunk : Str) : Str :=
  match splitStrOn ['\r'] chunk with
  | [] => buf
  | p0 :: rest =>
    let sw := chunk.head? = some '\r'
    let b1 := if buf = [] ∧ sw then buf else buf ++ p0
    let b2 := if sw then crStep b1 p0 else b1
    rest.foldl crStep b2

/-- detekt._run_processing_loop line 109: the ANSI erase-line control code. -/
def CLEAR_CODE : Str := "\x1b[2K".toList

/-- detekt._run_processing_loop lines 107-163: process one raw chunk. Newlines
are removed first; a chunk with the clear code keeps only the content after
the last clear code and rebuilds from the line start of the existing buffer;
otherwise carriage returns overwrite; otherwise the chunk is appended. -/
def apply_chunk (buf raw : Str) : Str :=
  let chunk := raw.filter (fun c => c != '\n')
  if containsStr CLEAR_CODE chunk = true then
    let eff := afterLastStr CLEAR_CODE chunk
    let base := beforeLastChar '\r' buf
    if eff.head? = some '\r' then base ++ '\r' :: eff.drop 1
    else if eff.contains '\r' = true then base ++ '\r' :: afterLastStr ['\r'] eff
    else base ++ eff
  else if chunk.contains '\r' = true then applyCR buf chunk
  else buf ++ chunk

/-- The logical current line of a reconstructed buffer: the text after its
last carriage return (the rendered single line of the spec data model). -/
def currentLine (buf : Str) : Str := afterLastChar '\r' buf

/-- One iteration of detekt._run_processing_loop (lines 103-171) on one chunk
read from the transport: reconstruct the character buffer, append a space and
the stripped snapshot of the character buffer to bob (line 168), then run
_process_buffer; an emitted utterance is returned from the loop. -/
def loopIter (phrase : Str) (charBuf : Str) (s : StreamState) (raw : Str) :
    Str × StreamState × Option Str :=
  let cb := apply_chunk charBuf raw
  let s1 : StreamState := { s with bob := s.bob ++ ' ' :: stripStr cb }
  let r := process_buffer phrase s1
  (cb, r.1, r.2)

/-- Modelled from the spec: the strict boundary variant of the utterance
assembler (spec sections 4.5 and 8), which fires only when the last two tokens
are both the Sentinel and at least one real token is present. This variant is
not under src; detekt._handle_words (lines 220-223) implements the relaxed
variant, which looks only at the last token. -/
def handle_words_strict (words : List Str) : Option Str :=
  if 2 ≤ words.length ∧ words.getLastD [] = BLANK_AUDIO ∧
      (words.dropLast).getLastD [] = BLANK_AUDIO ∧ (∃ w ∈ words, w ≠ BLANK_AUDIO) then
    some (List.intercalate [' '] (words.filter (fun i => i != BLANK_AUDIO)))
  else none

/-- A conversation-history entry of llm_agent.LLMAgent. -/
structure Message where
  role : Str
  content : Str
deriving DecidableEq

/-- The shape of a decoded chat-completion response, as inspected by
llm_agent.sendUserMessage lines 172-200: missing or empty choices, missing
message or content structure, or a content string. -/
inductive RespShape where
  | noChoices
  | noContent
  | withContent (content : Str)
deriving DecidableEq

/-- The outcome of the HTTP request in llm_agent.sendUserMessage: one of the
exception paths of lines 222-249, or a decoded response. -/
inductive ApiResult where
  | timeout
  | requestError
  | badJson
  | unexpected
  | ok (resp : RespShape)
deriving DecidableEq

/-- llm_agent.py line 20. -/
def THINK_START : Str := "<think>".toList

/-- llm_agent.py line 21. -/
def THINK_END : Str := "</think>".toList

/-- Python s[s.find(sep) + len(sep):] when sep occurs in s: the suffix after
the first occurrence of sep, obtained by rejoining all split parts but the
first. -/
def afterFirstStr (sep s : Str) : Str :=
  List.intercalate sep ((splitStrOn sep s).drop 1)

/-- llm_agent.sendUserMessage lines 172-200: extraction of the assistant
content from a decoded response, including the think-tag stripping of lines
180-196. Returns none when the choices, message or content structure is
missing or the content string is falsy; a think-only block yields the empty
string. -/
def extractContent : RespShape → Option Str
  | .noChoices => none
  | .noContent => none
  | .withContent content =>
    if content = [] then none
    else
      let raw := stripStr content
      if THINK_START.isPrefixOf raw then
        if containsStr THINK_END raw = true then
          some (stripStr (afterFirstStr THINK_END raw))
        else some raw
      else some raw

/-- llm_agent.sendUserMessage (lines 131-249) as a pure function of the
in-memory history self.messages, the user message and the request outcome.
Empty or whitespace messages are rejected up front (line 141); every failure
path pops the user message appended at line 146; the unexpected-exception
path (lines 242-249) pops only when the last entry has the user role; on
success the assistant message is appended (line 212). History-file saving and
text-to-speech are external effects outside this model. -/
def sendUserMessage (history : List Message) (user : Str) (api : ApiResult) :
    List Message × Option Str :=
  if user = [] ∨ user.all isPySpace then (history, none)
  else
    let h1 := history ++ [⟨"user".toList, user⟩]
    match api with
    | .timeout => (h1.dropLast, none)
    | .requestError => (h1.dropLast, none)
    | .badJson => (h1.dropLast, none)
    | .unexpected =>
      (if (h1.getLast?).map Message.role = some "user".toList then h1.dropLast else h1, none)
    | .ok resp =>
      match extractContent resp with
      | none => (h1.dropLast, none)
      | some c =>
        if c = [] then (h1.dropLast, none)
        else (h1 ++ [⟨"assistant".toList, c⟩], some c)

/-! Helper lemmas about the string model. -/

theorem splitGo_ne_nil (c : Char) (r : Str) (f : Nat) (s : Str) :
    splitGo c r f s ≠ [] := by
  match f, s with
  | _, [] => simp [splitGo]
  | 0, a :: t => simp [splitGo]
  | g + 1, a :: t =>
    simp only [splitGo]
    split
    · simp
    · split <;> simp

theorem splitStrOn_ne_nil (sep s : Str) : splitStrOn sep s ≠ [] := by
  match sep with
  | [] => simp [splitStrOn]
  | c :: r => exact splitGo_ne_nil c r s.length s

theorem splitGo_of_not_mem {c : Char} {s : Str} (r : Str) (f : Nat) (h : c ∉ s) :
    splitGo c r f s = [s] := by
  induction f generalizing s with
  | zero => cases s <;> simp [splitGo]
  | succ g ih =>
    cases s with
    | nil => simp [splitGo]
    | cons a t =>
      have hne : ¬ (c :: r).isPrefixOf (a :: t) = true := by
        simp only [List.isPrefixOf, Bool.and_eq_true, beq_iff_eq]
        intro hx
        exact h (hx.1 ▸ List.mem_cons_self a t)
      have ht : c ∉ t := fun hm => h (List.mem_cons_of_mem a hm)
      simp only [splitGo, if_neg hne, ih ht]

theorem splitStrOn_of_head_not_mem {sep s : Str} {c : Char}
    (hh : sep.head? = some c) (h : c ∉ s) : splitStrOn sep s = [s] := by
  match sep with
  | [] => simp at hh
  | d :: r =>
    have : d = c := by simpa using hh
    subst this
    exact splitGo_of_not_mem r s.length h

theorem containsStr_eq_false_of_head_not_mem {sep s : Str} {c : Char}
    (hh : sep.head? = some c) (h : c ∉ s) : containsStr sep s = false := by
  have hsep : sep.isEmpty = false := by
    match sep with
    | [] => simp at hh
    | d :: r => rfl
  simp [containsStr, hsep, splitStrOn_of_head_not_mem hh h]

theorem not_mem_of_contains_eq_false {l : Str} {a : Char}
    (h : l.contains a = false) : a ∉ l := by
  intro hm
  simp [List.contains, List.elem_eq_mem, hm] at h

theorem contains_eq_false_of_not_mem {l : Str} {a : Char} (h : a ∉ l) :
    l.contains a = false := by
  simp [List.contains, List.elem_eq_mem, h]

theorem contains_eq_true_of_mem {l : Str} {a : Char} (h : a ∈ l) :
    l.contains a = true := by
  simp [List.contains, List.elem_eq_mem, h]

theorem mem_of_head?_eq_some {l : Str} {a : Char} (h : l.head? = some a) : a ∈ l := by
  cases l with
  | nil => simp at h
  | cons b t =>
    have : b = a := by simpa using h
    exact this ▸ List.mem_cons_self b t

theorem getLastD_mem {α : Type} {l : List α} (d : α) (h : l ≠ []) :
    l.getLastD d ∈ l := by
  rw [List.getLastD_eq_getLast?, List.getLast?_eq_getLast l h]
  exact List.getLast_mem h

theorem splitGo_fuel (c : Char) (r : Str) :
    ∀ (f₁ f₂ : Nat) (s : Str), s.length ≤ f₁ → s.length ≤ f₂ →
      splitGo c r f₁ s = splitGo c r f₂ s := by
  intro f₁
  induction f₁ with
  | zero =>
    intro f₂ s h1 h2
    cases s with
    | nil => cases f₂ <;> rfl
    | cons a t => simp at h1
  | succ g ih =>
    intro f₂ s h1 h2
    cases s with
    | nil => cases f₂ <;> rfl
    | cons a t =>
      cases f₂ with
      | zero => simp at h2
      | succ g2 =>
        have ht1 : t.length ≤ g := by simp at h1; omega
        have ht2 : t.length ≤ g2 := by simp at h2; omega
        have hdrop : (t.drop r.length).length ≤ t.length := by
          rw [List.length_drop]; omega
        simp only [splitGo]
        by_cases hp : (c :: r).isPrefixOf (a :: t) = true
        · simp only [if_pos hp,
            ih g2 (t.drop r.length) (le_trans hdrop ht1) (le_trans hdrop ht2)]
        · simp only [if_neg hp, ih g2 t ht1 ht2]

theorem splitStrOn_cons_self (c : Char) (s : Str) :
    splitStrOn [c] (c :: s) = [] :: splitStrOn [c] s := by
  show splitGo c [] (s.length + 1) (c :: s) = [] :: splitGo c [] s.length s
  have hp : ([c]).isPrefixOf (c :: s) = true := by simp [List.isPrefixOf]
  simp only [splitGo, if_pos hp, List.length_nil, List.drop_zero]

theorem splitGo_append_single (c : Char) :
    ∀ (f : Nat) (X Y : Str), (X ++ c :: Y).length ≤ f →
      splitGo c [] f (X ++ c :: Y) = splitStrOn [c] X ++ splitStrOn [c] Y := by
  intro f
  induction f with
  | zero => intro X Y h; simp at h
  | succ g ih =>
    intro X Y h
    cases X with
    | nil =>
      simp only [List.nil_append]
      have hp : ([c]).isPrefixOf (c :: Y) = true := by simp [List.isPrefixOf]
      simp only [splitGo, if_pos hp, List.length_nil, List.drop_zero]
      have hY : Y.length ≤ g := by simp at h; omega
      rw [splitGo_fuel c [] g Y.length Y hY (le_refl _)]
      rfl
    | cons a X' =>
      by_cases hac : c = a
      · subst hac
        have hp : ([c]).isPrefixOf (c :: (X' ++ c :: Y)) = true := by
          simp [List.isPrefixOf]
        simp only [List.cons_append, splitGo, if_pos hp, List.length_nil,
          List.drop_zero, List.append_eq]
        rw [ih X' Y (by simp at h ⊢; omega), splitStrOn_cons_self]
        rfl
      · have hp : ¬ ([c]).isPrefixOf (a :: (X' ++ c :: Y)) = true := by
          simp [List.isPrefixOf]
          exact hac
        simp only [List.cons_append, splitGo, if_neg hp, List.append_eq]
        rw [ih X' Y (by simp at h ⊢; omega)]
        cases hX : splitStrOn [c] X' with
        | nil => exact absurd hX (splitStrOn_ne_nil _ _)
        | cons h0 t0 =>
          have hR : splitStrOn [c] (a :: X') = (a :: h0) :: t0 := by
            show splitGo c [] (X'.length + 1) (a :: X') = _
            have hp2 : ¬ ([c]).isPrefixOf (a :: X') = true := by
              simp [List.isPrefixOf]
              exact hac
            simp only [splitGo, if_neg hp2]
            rw [show splitGo c [] X'.length X' = h0 :: t0 from hX]
          rw [hR]
          rfl

theorem splitStrOn_append_single (c : Char) (X Y : Str) :
    splitStrOn [c] (X ++ c :: Y) = splitStrOn [c] X ++ splitStrOn [c] Y :=
  splitGo_append_single c (X ++ c :: Y).length X Y (le_refl _)

theorem intercalate_cons_of_ne_nil {α : Type} (sep x : List α) {L : List (List α)}
    (h : L ≠ []) :
    List.intercalate sep (x :: L) = x ++ sep ++ List.intercalate sep L := by
  cases L with
  | nil => exact absurd rfl h
  | cons y t => simp [List.intercalate, List.intersperse, List.append_assoc]

theorem intercalate_cons_head {α : Type} (sep : List α) (a : α) (h0 : List α)
    (t0 : List (List α)) :
    List.intercalate sep ((a :: h0) :: t0) = a :: List.intercalate sep (h0 :: t0) := by
  cases t0 with
  | nil => simp [List.intercalate, List.intersperse]
  | cons u v =>
    rw [intercalate_cons_of_ne_nil sep (a :: h0) (L := u :: v) (by simp),
      intercalate_cons_of_ne_nil sep h0 (L := u :: v) (by simp)]
    simp [List.append_assoc]

theorem intercalate_concat {α : Type} (sep x : List α) {L : List (List α)}
    (h : L ≠ []) :
    List.intercalate sep (L ++ [x]) = List.intercalate sep L ++ sep ++ x := by
  induction L with
  | nil => exact absurd rfl h
  | cons y t ih =>
    cases t with
    | nil => simp [List.intercalate, List.intersperse, List.append_assoc]
    | cons z t' =>
      rw [List.cons_append, intercalate_cons_of_ne_nil sep y (by simp),
        intercalate_cons_of_ne_nil sep y (by simp : (z :: t') ≠ []), ih (by simp)]
      simp [List.append_assoc]

theorem intercalate_splitGo (c : Char) (r : Str) :
    ∀ (f : Nat) (s : Str), s.length ≤ f →
      List.intercalate (c :: r) (splitGo c r f s) = s := by
  intro f
  induction f with
  | zero =>
    intro s h
    cases s with
    | nil => simp [splitGo, List.intercalate]
    | cons a t => simp at h
  | succ g ih =>
    intro s h
    cases s with
    | nil => simp [splitGo, List.intercalate]
    | cons a t =>
      simp only [splitGo]
      by_cases hp : (c :: r).isPrefixOf (a :: t) = true
      · simp only [if_pos hp]
        have hpre : (c :: r) <+: (a :: t) := List.isPrefixOf_iff_prefix.mp hp
        have hdec := List.prefix_iff_eq_append.mp hpre
        rw [intercalate_cons_of_ne_nil _ _ (splitGo_ne_nil c r g (t.drop r.length)),
          ih (t.drop r.length) (by rw [List.length_drop]; simp at h; omega)]
        simpa using hdec
      · simp only [if_neg hp]
        cases hsp : splitGo c r g t with
        | nil => exact absurd hsp (splitGo_ne_nil c r g t)
        | cons h0 t0 =>
          have hrec : List.intercalate (c :: r) (h0 :: t0) = t := by
            rw [← hsp]
            exact ih t (by simp at h; omega)
          rw [intercalate_cons_head, hrec]

theorem intercalate_splitStrOn {sep : Str} (s : Str) (h : sep ≠ []) :
    List.intercalate sep (splitStrOn sep s) = s := by
  match sep with
  | [] => exact absurd rfl h
  | c :: r => exact intercalate_splitGo c r s.length s (le_refl _)

theorem dropWhile_append_all {p : Char → Bool} {A : Str} (B : Str)
    (h : ∀ x ∈ A, p x = true) : (A ++ B).dropWhile p = B.dropWhile p := by
  induction A with
  | nil => simp
  | cons a t ih =>
    have ha := h a (List.mem_cons_self a t)
    simp [List.dropWhile, ha, ih (fun x hx => h x (List.mem_cons_of_mem a hx))]

theorem takeWhile_append_all {p : Char → Bool} {A : Str} (B : Str)
    (h : ∀ x ∈ A, p x = true) : (A ++ B).takeWhile p = A ++ B.takeWhile p := by
  induction A with
  | nil => simp
  | cons a t ih =>
    have ha := h a (List.mem_cons_self a t)
    simp [List.takeWhile, ha, ih (fun x hx => h x (List.mem_cons_of_mem a hx))]

theorem beforeLastChar_append {c : Char} (Z : Str) {W : Str} (h : c ∉ W) :
    beforeLastChar c (Z ++ c :: W) = Z := by
  unfold beforeLastChar
  rw [List.reverse_append, List.reverse_cons, List.append_assoc,
    dropWhile_append_all _ (fun x hx => by
      have hxW : x ∈ W := List.mem_reverse.mp hx
      have : x ≠ c := fun he => h (he ▸ hxW)
      simpa [bne_iff_ne] using this)]
  simp [List.dropWhile]

theorem afterLastChar_append {c : Char} (Z : Str) {W : Str} (h : c ∉ W) :
    afterLastChar c (Z ++ c :: W) = W := by
  unfold afterLastChar
  rw [List.reverse_append, List.reverse_cons, List.append_assoc,
    takeWhile_append_all _ (fun x hx => by
      have hxW : x ∈ W := List.mem_reverse.mp hx
      have : x ≠ c := fun he => h (he ▸ hxW)
      simpa [bne_iff_ne] using this)]
  simp [List.takeWhile]

theorem mem_of_mem_splitGo {c : Char} {r : Str} :
    ∀ {f : Nat} {s p : Str}, p ∈ splitGo c r f s → ∀ {x : Char}, x ∈ p → x ∈ s := by
  intro f
  induction f with
  | zero =>
    intro s p hp x hx
    cases s with
    | nil =>
      simp [splitGo] at hp
      subst hp
      simp at hx
    | cons a t =>
      simp [splitGo] at hp
      exact hp ▸ hx
  | succ g ih =>
    intro s p hp x hx
    cases s with
    | nil =>
      simp [splitGo] at hp
      subst hp
      simp at hx
    | cons a t =>
      simp only [splitGo] at hp
      by_cases hpre : (c :: r).isPrefixOf (a :: t) = true
      · rw [if_pos hpre] at hp
        rcases List.mem_cons.mp hp with he | hm
        · subst he; simp at hx
        · have : x ∈ t.drop r.length := ih hm hx
          exact List.mem_cons_of_mem a (List.drop_subset _ _ this)
      · rw [if_neg hpre] at hp
        cases hsp : splitGo c r g t with
        | nil => exact absurd hsp (splitGo_ne_nil c r g t)
        | cons h0 t0 =>
          rw [hsp] at hp
          rcases List.mem_cons.mp hp with he | hm
          · subst he
            rcases List.mem_cons.mp hx with hxa | hxh
            · exact hxa ▸ List.mem_cons_self a t
            · have : x ∈ t := ih (hsp ▸ List.mem_cons_self h0 t0) hxh
              exact List.mem_cons_of_mem a this
          · have : x ∈ t := ih (hsp ▸ List.mem_cons_of_mem h0 hm) hx
            exact List.mem_cons_of_mem a this

theorem mem_of_mem_splitStrOn {sep s p : Str} (hp : p ∈ splitStrOn sep s)
    {x : Char} (hx : x ∈ p) : x ∈ s := by
  match sep with
  | [] =>
    simp [splitStrOn] at hp
    exact hp ▸ hx
  | c :: r => exact mem_of_mem_splitGo (f := s.length) hp hx

/-! Helper lemmas about the pipeline definitions. -/

theorem replaceAll_id (old new s : Str) (c : Char) (hh : old.head? = some c)
    (h : c ∉ s) : replaceAll old new s = s := by
  unfold replaceAll
  rw [splitStrOn_of_head_not_mem hh h]
  simp [List.intercalate, List.intersperse]

theorem replaceNoise_eq_self {s : Str} (hb : '[' ∉ s) (hp : '(' ∉ s) :
    replaceNoise s = s := by
  unfold replaceNoise
  rw [replaceAll_id ("[Start speaking]".toList) BLANK_AUDIO s '[' (by decide) hb,
    replaceAll_id ("(keyboard clicking)".toList) BLANK_AUDIO s '(' (by decide) hp,
    replaceAll_id ("[typing sounds]".toList) BLANK_AUDIO s '[' (by decide) hb,
    replaceAll_id ("[ Silence ]".toList) BLANK_AUDIO s '[' (by decide) hb,
    replaceAll_id ("(whooshing)".toList) BLANK_AUDIO s '(' (by decide) hp,
    replaceAll_id ("(sighs)".toList) BLANK_AUDIO s '(' (by decide) hp]

theorem tokensOf_nil : tokensOf [] = [] := by decide

theorem tokensOf_append_sep (A B : Str) :
    tokensOf (A ++ ' ' :: B) = tokensOf A ++ tokensOf B := by
  unfold tokensOf
  rw [splitStrOn_append_single ' ' A B, List.filter_append]

theorem tokensOf_space_cons (A : Str) : tokensOf (' ' :: A) = tokensOf A := by
  have h := tokensOf_append_sep [] A
  simpa [tokensOf_nil] using h

theorem blank_not_in_tokensOf {s : Str} (h : '[' ∉ s) :
    BLANK_AUDIO ∉ tokensOf s := by
  intro hmem
  have hsplit : BLANK_AUDIO ∈ splitStrOn [' '] s := List.mem_of_mem_filter hmem
  exact h (mem_of_mem_splitStrOn hsplit (by decide))

theorem handle_words_no_blank (s : StreamState) (words : List Str)
    (h : BLANK_AUDIO ∉ words) : handle_words s words = (s, none) := by
  unfold handle_words
  rw [if_neg]
  rintro ⟨hl, hlast, -⟩
  have hne : words ≠ [] := by
    intro h0
    subst h0
    simp at hl
  exact h (hlast ▸ getLastD_mem [] hne)

theorem tokenize_and_handle_activated (s : StreamState) :
    (tokenize_and_handle s).1.activated = s.activated := by
  simp only [tokenize_and_handle, handle_words]
  split <;> rfl

theorem process_buffer_listening (phrase : Str) (s : StreamState)
    (hr : s.ready = true) (ha : s.activated = true)
    (hb : '[' ∉ s.bob) (hp : '(' ∉ s.bob) :
    process_buffer phrase s = (s, none) := by
  unfold process_buffer
  rw [if_neg (by simp [hr]), if_neg (by simp [hr]), if_neg (by simp [ha])]
  unfold tokenize_and_handle
  rw [replaceNoise_eq_self hb hp]
  exact handle_words_no_blank _ _ (blank_not_in_tokensOf hb)

theorem apply_chunk_plain (buf ch : Str)
    (h : ∀ c ∈ ch, c ≠ '\r' ∧ c ≠ '\x1b') :
    apply_chunk buf ch = buf ++ ch.filter (fun c => c != '\n') := by
  unfold apply_chunk
  have hsub : ∀ c ∈ ch.filter (fun c => c != '\n'), c ∈ ch := fun c hc =>
    (List.filter_sublist ch).subset hc
  have hesc : '\x1b' ∉ ch.filter (fun c => c != '\n') := fun hm =>
    ((h _ (hsub _ hm)).2) rfl
  have hcr : '\r' ∉ ch.filter (fun c => c != '\n') := fun hm =>
    ((h _ (hsub _ hm)).1) rfl
  rw [if_neg (by
      rw [containsStr_eq_false_of_head_not_mem (c := '\x1b') (by decide) hesc]
      simp),
    if_neg (by
      rw [contains_eq_false_of_not_mem hcr]
      simp)]

/-! Claim theorems. -/

/-- C1: for every token sequence passed to the utterance assembler
_handle_words (detekt.py lines 217-224; by the filter at line 213, every
piece passed in has a nonempty normalization), an utterance is returned if
and only if the sequence has at least two elements, its final element is the
Sentinel and at least one element is not the Sentinel; when it is returned
it equals the non-Sentinel tokens in their original relative order joined by
single spaces, and the accumulation buffer self.bob is cleared. In
particular a sequence with no non-Sentinel token never produces an
utterance. -/
theorem handle_words_boundary (s : StreamState) (words : List Str)
    (hW : ∀ w ∈ words, normalize_word w ≠ []) :
    ((handle_words s words).2.isSome ↔
      (2 ≤ words.length ∧ words.getLastD [] = BLANK_AUDIO ∧
        ∃ w ∈ words, w ≠ BLANK_AUDIO)) ∧
    (∀ u, (handle_words s words).2 = some u →
      u = List.intercalate [' '] (words.filter (fun i => i != BLANK_AUDIO)) ∧
      (handle_words s words).1.bob = []) := by
  by_cases hc : 2 ≤ words.length ∧ words.getLastD [] = BLANK_AUDIO ∧
      ∃ w ∈ words, w ≠ BLANK_AUDIO ∧ w ≠ []
  · constructor
    · simp only [handle_words, if_pos hc, Option.isSome_some, true_iff]
      exact ⟨hc.1, hc.2.1, hc.2.2.elim fun w hw => ⟨w, hw.1, hw.2.1⟩⟩
    · intro u hu
      simp only [handle_words, if_pos hc] at hu ⊢
      have : List.intercalate [' '] (words.filter (fun i => i != BLANK_AUDIO)) = u := by
        simpa using hu
      refine ⟨this.symm, ?_⟩
      trivial
  · have hres : handle_words s words = (s, none) := by
      unfold handle_words
      rw [if_neg hc]
    constructor
    · rw [hres]
      simp only [Option.isSome_none, Bool.false_eq_true, false_iff]
      rintro ⟨h1, h2, w, hw, hwne⟩
      exact hc ⟨h1, h2, ⟨w, hw, hwne, fun he => hW w hw (by rw [he]; rfl)⟩⟩
    · intro u hu
      rw [hres] at hu
      simp at hu

/-- Witness for C1 at a concrete token sequence. -/
theorem handle_words_boundary_witness :
    (∀ w ∈ [("Hello".toList : Str), BLANK_AUDIO], normalize_word w ≠ []) ∧
    (handle_words ⟨"x".toList, true, true⟩ ["Hello".toList, BLANK_AUDIO]).2.isSome = true :=
  ⟨by decide,
    ((handle_words_boundary ⟨"x".toList, true, true⟩ ["Hello".toList, BLANK_AUDIO]
      (by decide)).1).mpr (by decide)⟩

/-- C2: under the strict boundary variant (modelled from the spec; not in
src, where detekt.py implements the relaxed variant) the token sequence
consisting of stop and one Sentinel does not fire, while stop followed by
two Sentinels fires and emits stop: the strict assembler requires the last
two tokens to both be the Sentinel before finalizing. -/
theorem handle_words_strict_scenario :
    handle_words_strict ["stop".toList, BLANK_AUDIO] = none ∧
    handle_words_strict ["stop".toList, BLANK_AUDIO, BLANK_AUDIO] =
      some "stop".toList := by
  decide

/-- C3 counterexample: readiness matching is not case-insensitive. With
ready still false, the canonical buffer triggers the ready transition while
the same marker upper-cased does not, refuting that the two casings behave
identically. -/
theorem readiness_not_case_insensitive :
    (process_buffer "hi".toList ⟨"[Start speaking]".toList, false, true⟩).1.ready = true ∧
    (process_buffer "hi".toList ⟨"[START SPEAKING]".toList, false, true⟩).1.ready = false := by
  decide

/-- C3 amended: readiness-marker matching is a case-sensitive substring
search (detekt.py line 193). For every buffer with ready still false, the
ready transition (ready set to true, buffer cleared, nothing tokenized that
iteration) happens exactly when the buffer contains the marker with its
exact casing; otherwise the state is retained and nothing is returned. -/
theorem readiness_marker_exact_case (phrase : Str) (s : StreamState)
    (h : s.ready = false) :
    (containsStr READY_MARKER s.bob = true →
      process_buffer phrase s = ({ s with ready := true, bob := [] }, none)) ∧
    (containsStr READY_MARKER s.bob = false →
      process_buffer phrase s = (s, none)) := by
  constructor
  · intro hc
    unfold process_buffer
    rw [if_pos ⟨hc, h⟩]
  · intro hc
    unfold process_buffer
    rw [if_neg (by simp [hc]), if_pos h]

/-- Witness for the amended C3 at a concrete buffer. -/
theorem readiness_marker_exact_case_witness :
    (false = false) ∧
    process_buffer "hi".toList ⟨"abc [Start speaking]".toList, false, false⟩ =
      (⟨[], true, false⟩, none) :=
  ⟨rfl,
    (readiness_marker_exact_case "hi".toList
      ⟨"abc [Start speaking]".toList, false, false⟩ rfl).1 (by decide)⟩

/-- C4: once ready is true and activation is required but not yet granted,
the configured phrase is searched case-insensitively in the buffer
(detekt.py lines 200-205). On a match, activated is set to true and the
buffer is replaced by exactly the text after the occurrence of the phrase in
the lower-cased buffer -- the prefix including the phrase is discarded --
before the rest of the iteration runs; with no match the state is retained
unchanged and no utterance is produced for the iteration. -/
theorem activation_gate (phrase : Str) (s : StreamState) (hp : phrase ≠ [])
    (hr : s.ready = true) (ha : s.activated = false) :
    (containsStr phrase (lowerStr s.bob) = true →
      process_buffer phrase s =
        tokenize_and_handle
          { s with activated := true, bob := afterLastStr phrase (lowerStr s.bob) } ∧
      (process_buffer phrase s).1.activated = true ∧
      ∃ pre : Str,
        lowerStr s.bob = pre ++ phrase ++ afterLastStr phrase (lowerStr s.bob)) ∧
    (containsStr phrase (lowerStr s.bob) = false →
      process_buffer phrase s = (s, none)) := by
  have hbranch : process_buffer phrase s =
      (if containsStr phrase (lowerStr s.bob) = true then
        tokenize_and_handle
          { s with activated := true, bob := afterLastStr phrase (lowerStr s.bob) }
      else (s, none)) := by
    unfold process_buffer
    rw [if_neg (by simp [hr]), if_neg (by simp [hr]), if_pos ha]
  constructor
  · intro hc
    refine ⟨by rw [hbranch, if_pos hc], ?_, ?_⟩
    · rw [hbranch, if_pos hc, tokenize_and_handle_activated]
    · have hne : splitStrOn phrase (lowerStr s.bob) ≠ [] := splitStrOn_ne_nil _ _
      have hemp : phrase.isEmpty = false := by
        cases phrase with
        | nil => exact absurd rfl hp
        | cons a t => rfl
      have hlen : 1 < (splitStrOn phrase (lowerStr s.bob)).length := by
        simpa [containsStr, hemp] using hc
      have hdl : (splitStrOn phrase (lowerStr s.bob)).dropLast ≠ [] := by
        intro h0
        have hL := List.length_dropLast (splitStrOn phrase (lowerStr s.bob))
        rw [h0] at hL
        simp at hL
        omega
      refine ⟨List.intercalate phrase (splitStrOn phrase (lowerStr s.bob)).dropLast, ?_⟩
      have hgld : afterLastStr phrase (lowerStr s.bob) =
          (splitStrOn phrase (lowerStr s.bob)).getLast hne := by
        unfold afterLastStr
        rw [List.getLastD_eq_getLast?, List.getLast?_eq_getLast _ hne]
        rfl
      calc lowerStr s.bob
          = List.intercalate phrase (splitStrOn phrase (lowerStr s.bob)) :=
            (intercalate_splitStrOn _ hp).symm
        _ = List.intercalate phrase
              ((splitStrOn phrase (lowerStr s.bob)).dropLast ++
                [(splitStrOn phrase (lowerStr s.bob)).getLast hne]) := by
            rw [List.dropLast_append_getLast hne]
        _ = List.intercalate phrase (splitStrOn phrase (lowerStr s.bob)).dropLast ++
              phrase ++ (splitStrOn phrase (lowerStr s.bob)).getLast hne :=
            intercalate_concat phrase _ hdl
        _ = List.intercalate phrase (splitStrOn phrase (lowerStr s.bob)).dropLast ++
              phrase ++ afterLastStr phrase (lowerStr s.bob) := by rw [hgld]
  · intro hc
    rw [hbranch, if_neg (by simp [hc])]

/-- Witness for C4 at a concrete buffer and phrase. -/
theorem activation_gate_witness :
    ("hi".toList ≠ ([] : Str)) ∧
    (process_buffer "hi".toList ⟨"say Hi NOW".toList, true, false⟩).1.activated = true :=
  ⟨by decide,
    ((activation_gate "hi".toList ⟨"say Hi NOW".toList, true, false⟩ (by decide) rfl
      rfl).1 (by decide)).2.1⟩

/-- C5: for every buffer processed after readiness and activation, every
piece of the noise-replaced buffer that survives the non-emptiness test
(strip non-alphanumerics, lowercase, test nonempty) is kept in the token
sequence with its original text, in the original order, and an emitted
utterance is the space-join of exactly the kept non-Sentinel pieces, hence
reproduces the original casing of the spoken words. -/
theorem token_casing_preserved (phrase : Str) (s : StreamState)
    (hr : s.ready = true) (ha : s.activated = true) :
    (tokensOf (replaceNoise s.bob)).Sublist (splitStrOn [' '] (replaceNoise s.bob)) ∧
    (∀ p ∈ splitStrOn [' '] (replaceNoise s.bob), normalize_word p ≠ [] →
      p ∈ tokensOf (replaceNoise s.bob)) ∧
    (∀ u, (process_buffer phrase s).2 = some u →
      u = List.intercalate [' ']
        ((tokensOf (replaceNoise s.bob)).filter (fun i => i != BLANK_AUDIO))) := by
  refine ⟨List.filter_sublist _, ?_, ?_⟩
  · intro p hpmem hnorm
    unfold tokensOf
    rw [List.mem_filter]
    refine ⟨hpmem, ?_⟩
    simp only [Bool.not_eq_true']
    rw [List.isEmpty_eq_false_iff_exists_mem]
    cases hn : normalize_word p with
    | nil => exact absurd hn hnorm
    | cons a t => exact ⟨a, List.mem_cons_self a t⟩
  · intro u hu
    unfold process_buffer at hu
    rw [if_neg (by simp [hr]), if_neg (by simp [hr]), if_neg (by simp [ha])] at hu
    simp only [tokenize_and_handle, handle_words] at hu
    split at hu
    · simpa using hu.symm
    · simp at hu

/-- Witness for C5 at a concrete buffer with mixed casing. -/
theorem token_casing_preserved_witness :
    (process_buffer "hi".toList ⟨"Hello World [BLANK_AUDIO]".toList, true, true⟩).2 =
      some "Hello World".toList ∧
    "Hello World".toList = List.intercalate [' ']
      ((tokensOf (replaceNoise "Hello World [BLANK_AUDIO]".toList)).filter
        (fun i => i != BLANK_AUDIO)) :=
  ⟨by decide,
    (token_casing_preserved "hi".toList
      ⟨"Hello World [BLANK_AUDIO]".toList, true, true⟩ rfl rfl).2.2
      "Hello World".toList (by decide)⟩

/-- C6: for every existing buffer and every chunk whose newline-stripped
content contains a line-clear marker and whose effective content (the text
after the last marker) has no carriage return, the resulting buffer equals
the line start of the existing buffer (the text before its last carriage
return, or empty if it has none) followed by the new text after the last
clear marker, regardless of what was in the buffer after the line start and
of the chunk content before the marker. -/
theorem clear_marker_rebuild (buf chunk : Str)
    (h1 : containsStr CLEAR_CODE (chunk.filter (fun c => c != '\n')) = true)
    (h2 : (afterLastStr CLEAR_CODE
      (chunk.filter (fun c => c != '\n'))).contains '\r' = false) :
    apply_chunk buf chunk =
      beforeLastChar '\r' buf ++
        afterLastStr CLEAR_CODE (chunk.filter (fun c => c != '\n')) := by
  have hnotmem : '\r' ∉ afterLastStr CLEAR_CODE
      (chunk.filter (fun c => c != '\n')) := not_mem_of_contains_eq_false h2
  have hhead : ¬ ((afterLastStr CLEAR_CODE
      (chunk.filter (fun c => c != '\n'))).head? = some '\r') :=
    fun hh => hnotmem (mem_of_head?_eq_some hh)
  unfold apply_chunk
  rw [if_pos h1, if_neg hhead, if_neg (by simpa using hnotmem)]

/-- Witness for C6 at a concrete buffer and chunk. -/
theorem clear_marker_rebuild_witness :
    (containsStr CLEAR_CODE
      (("junk\x1b[2Knew".toList).filter (fun c => c != '\n')) = true) ∧
    ((afterLastStr CLEAR_CODE
      (("junk\x1b[2Knew".toList).filter (fun c => c != '\n'))).contains '\r' = false) ∧
    apply_chunk "ab\rcd".toList "junk\x1b[2Knew".toList = "abnew".toList := by
  refine ⟨by decide, by decide, ?_⟩
  rw [clear_marker_rebuild "ab\rcd".toList "junk\x1b[2Knew".toList (by decide) (by decide)]
  decide

/-- C7: for all texts X and Y free of control characters with Y shorter than
X, processing one chunk consisting of a carriage return, X, a second
carriage return and Y leaves the logical current line equal to exactly Y,
with no trailing leftover characters of X, whatever the starting buffer. -/
theorem carriage_return_overwrite (buf X Y : Str)
    (hX : ∀ c ∈ X, c ≠ '\r' ∧ c ≠ '\n' ∧ c ≠ '\x1b')
    (hY : ∀ c ∈ Y, c ≠ '\r' ∧ c ≠ '\n' ∧ c ≠ '\x1b')
    (_hlen : Y.length < X.length) :
    currentLine (apply_chunk buf ('\r' :: (X ++ '\r' :: Y))) = Y := by
  have hXr : '\r' ∉ X := fun hm => (hX _ hm).1 rfl
  have hYr : '\r' ∉ Y := fun hm => (hY _ hm).1 rfl
  have hfil : ('\r' :: (X ++ '\r' :: Y)).filter (fun c => c != '\n') =
      '\r' :: (X ++ '\r' :: Y) := by
    rw [List.filter_eq_self]
    intro a ha
    rcases List.mem_cons.mp ha with he | hm
    · rw [he]; decide
    · rcases List.mem_append.mp hm with hmX | hmY
      · simpa [bne_iff_ne] using (hX _ hmX).2.1
      · rcases List.mem_cons.mp hmY with he2 | hm2
        · rw [he2]; decide
        · simpa [bne_iff_ne] using (hY _ hm2).2.1
  have hesc : '\x1b' ∉ '\r' :: (X ++ '\r' :: Y) := by
    intro hm
    rcases List.mem_cons.mp hm with he | hm2
    · exact absurd he (by decide)
    · rcases List.mem_append.mp hm2 with hmX | hmY
      · exact (hX _ hmX).2.2 rfl
      · rcases List.mem_cons.mp hmY with he2 | hm3
        · exact absurd he2 (by decide)
        · exact (hY _ hm3).2.2 rfl
  have hparts : splitStrOn ['\r'] ('\r' :: (X ++ '\r' :: Y)) = [[], X, Y] := by
    rw [splitStrOn_cons_self, splitStrOn_append_single,
      @splitStrOn_of_head_not_mem ['\r'] X '\r' rfl hXr,
      @splitStrOn_of_head_not_mem ['\r'] Y '\r' rfl hYr]
    rfl
  have happ : applyCR buf ('\r' :: (X ++ '\r' :: Y)) =
      beforeLastChar '\r' buf ++ '\r' :: Y := by
    unfold applyCR
    rw [hparts]
    simp only [List.head?_cons]
    rw [if_pos trivial]
    have hb1 : (if buf = [] ∧ True then buf else buf ++ ([] : Str)) = buf := by
      split <;> simp
    rw [hb1]
    show crStep (crStep (crStep buf []) X) Y = _
    unfold crStep
    rw [beforeLastChar_append (beforeLastChar '\r' buf) (List.not_mem_nil '\r'),
      beforeLastChar_append (beforeLastChar '\r' buf) hXr]
  unfold apply_chunk
  rw [hfil,
    if_neg (by
      rw [containsStr_eq_false_of_head_not_mem (c := '\x1b') (by decide) hesc]
      simp),
    if_pos (contains_eq_true_of_mem (List.mem_cons_self _ _)), happ]
  exact afterLastChar_append (beforeLastChar '\r' buf) hYr

/-- Witness for C7 at concrete texts. -/
theorem carriage_return_overwrite_witness :
    (∀ c ∈ ("longer".toList : Str), c ≠ '\r' ∧ c ≠ '\n' ∧ c ≠ '\x1b') ∧
    (∀ c ∈ ("y".toList : Str), c ≠ '\r' ∧ c ≠ '\n' ∧ c ≠ '\x1b') ∧
    ("y".toList : Str).length < ("longer".toList : Str).length ∧
    currentLine (apply_chunk "abc".toList
      ('\r' :: ("longer".toList ++ '\r' :: "y".toList))) = "y".toList :=
  ⟨by decide, by decide, by decide,
    carriage_return_overwrite "abc".toList "longer".toList "y".toList
      (by decide) (by decide) (by decide)⟩

theorem foldl_apply_chunk_plain (buf : Str) (chunks : List Str)
    (h : ∀ ch ∈ chunks, ∀ c ∈ ch, c ≠ '\r' ∧ c ≠ '\x1b') :
    List.foldl apply_chunk buf chunks =
      buf ++ (chunks.map (fun ch => ch.filter (fun c => c != '\n'))).flatten := by
  induction chunks generalizing buf with
  | nil => simp
  | cons ch rest ih =>
    simp only [List.foldl_cons, List.map_cons, List.flatten_cons]
    rw [apply_chunk_plain buf ch (h ch (List.mem_cons_self _ _)),
      ih _ (fun c hc => h c (List.mem_cons_of_mem _ hc)), List.append_assoc]

/-- C8: for every buffer and every sequence of chunks containing only plain
text (no clear markers and no carriage returns; newlines stripped),
reconstruction is plain concatenation of the newline-stripped chunks, and is
therefore associative: any plain chunk sequence with the same concatenation
reconstructs the same buffer. -/
theorem plain_chunks_concat (buf : Str) (chunks : List Str)
    (h : ∀ ch ∈ chunks, ∀ c ∈ ch, c ≠ '\r' ∧ c ≠ '\x1b') :
    List.foldl apply_chunk buf chunks =
      buf ++ (chunks.map (fun ch => ch.filter (fun c => c != '\n'))).flatten ∧
    (∀ chunks2 : List Str, (∀ ch ∈ chunks2, ∀ c ∈ ch, c ≠ '\r' ∧ c ≠ '\x1b') →
      (chunks2.map (fun ch => ch.filter (fun c => c != '\n'))).flatten =
        (chunks.map (fun ch => ch.filter (fun c => c != '\n'))).flatten →
      List.foldl apply_chunk buf chunks2 = List.foldl apply_chunk buf chunks) := by
  refine ⟨foldl_apply_chunk_plain buf chunks h, ?_⟩
  intro chunks2 h2 hjoin
  rw [foldl_apply_chunk_plain buf chunks2 h2, foldl_apply_chunk_plain buf chunks h,
    hjoin]

/-- Witness for C8 at a concrete chunk sequence. -/
theorem plain_chunks_concat_witness :
    (∀ ch ∈ [("ab".toList : Str), "cd\n".toList], ∀ c ∈ ch, c ≠ '\r' ∧ c ≠ '\x1b') ∧
    List.foldl apply_chunk "x".toList ["ab".toList, "cd\n".toList] = "xabcd".toList := by
  refine ⟨by decide, ?_⟩
  rw [(plain_chunks_concat "x".toList ["ab".toList, "cd\n".toList] (by decide)).1]
  decide

theorem mem_stripStr_subset {s : Str} {x : Char} (hx : x ∈ stripStr s) : x ∈ s := by
  unfold stripStr at hx
  have h1 := List.mem_reverse.mp hx
  have h2 := (List.dropWhile_sublist _).subset h1
  have h3 := List.mem_reverse.mp h2
  exact (List.dropWhile_sublist _).subset h3

/-- C9 (implicit): on every iteration the loop appends a space plus the whole
stripped current-line snapshot to the accumulation buffer self.bob without
removing the previous snapshot. For two consecutive plain-text chunks
received after readiness and activation, starting from empty buffers, the
first iteration leaves the accumulation holding the snapshot of the first
chunk, the second iteration appends the snapshot of both chunks together,
and the resulting token sequence is the words of the first chunk followed by
the words of the first and second chunks combined -- a line redrawn across
several chunks contributes its words several times. -/
theorem accumulation_duplicates (phrase c1 c2 : Str)
    (h1 : ∀ c ∈ c1, c ≠ '\r' ∧ c ≠ '\n' ∧ c ≠ '\x1b' ∧ c ≠ '[' ∧ c ≠ '(')
    (h2 : ∀ c ∈ c2, c ≠ '\r' ∧ c ≠ '\n' ∧ c ≠ '\x1b' ∧ c ≠ '[' ∧ c ≠ '(') :
    loopIter phrase [] ⟨[], true, true⟩ c1 =
      (c1, ⟨' ' :: stripStr c1, true, true⟩, none) ∧
    loopIter phrase c1 ⟨' ' :: stripStr c1, true, true⟩ c2 =
      (c1 ++ c2, ⟨(' ' :: stripStr c1) ++ ' ' :: stripStr (c1 ++ c2), true, true⟩, none) ∧
    tokensOf ((' ' :: stripStr c1) ++ ' ' :: stripStr (c1 ++ c2)) =
      tokensOf (stripStr c1) ++ tokensOf (stripStr (c1 ++ c2)) := by
  have hf1 : c1.filter (fun c => c != '\n') = c1 := by
    rw [List.filter_eq_self]
    intro a ha
    simpa [bne_iff_ne] using (h1 _ ha).2.1
  have hf2 : c2.filter (fun c => c != '\n') = c2 := by
    rw [List.filter_eq_self]
    intro a ha
    simpa [bne_iff_ne] using (h2 _ ha).2.1
  have hcb1 : apply_chunk [] c1 = c1 := by
    rw [apply_chunk_plain [] c1 (fun c hc => ⟨(h1 c hc).1, (h1 c hc).2.2.1⟩), hf1]
    simp
  have hcb2 : apply_chunk c1 c2 = c1 ++ c2 := by
    rw [apply_chunk_plain c1 c2 (fun c hc => ⟨(h2 c hc).1, (h2 c hc).2.2.1⟩), hf2]
  have hb1bracket : '[' ∉ ' ' :: stripStr c1 := by
    intro hm
    rcases List.mem_cons.mp hm with he | hm2
    · exact absurd he (by decide)
    · exact (h1 _ (mem_stripStr_subset hm2)).2.2.2.1 rfl
  have hb1paren : '(' ∉ ' ' :: stripStr c1 := by
    intro hm
    rcases List.mem_cons.mp hm with he | hm2
    · exact absurd he (by decide)
    · exact (h1 _ (mem_stripStr_subset hm2)).2.2.2.2 rfl
  have h12 : ∀ c ∈ c1 ++ c2, c ≠ '[' ∧ c ≠ '(' := by
    intro c hc
    rcases List.mem_append.mp hc with hm | hm
    · exact ⟨(h1 c hm).2.2.2.1, (h1 c hm).2.2.2.2⟩
    · exact ⟨(h2 c hm).2.2.2.1, (h2 c hm).2.2.2.2⟩
  have hb2bracket : '[' ∉ (' ' :: stripStr c1) ++ ' ' :: stripStr (c1 ++ c2) := by
    intro hm
    rcases List.mem_append.mp hm with hm1 | hm2
    · exact hb1bracket hm1
    · rcases List.mem_cons.mp hm2 with he | hm3
      · exact absurd he (by decide)
      · exact (h12 _ (mem_stripStr_subset hm3)).1 rfl
  have hb2paren : '(' ∉ (' ' :: stripStr c1) ++ ' ' :: stripStr (c1 ++ c2) := by
    intro hm
    rcases List.mem_append.mp hm with hm1 | hm2
    · exact hb1paren hm1
    · rcases List.mem_cons.mp hm2 with he | hm3
      · exact absurd he (by decide)
      · exact (h12 _ (mem_stripStr_subset hm3)).2 rfl
  refine ⟨?_, ?_, ?_⟩
  · simp only [loopIter, hcb1, List.nil_append]
    rw [process_buffer_listening phrase ⟨' ' :: stripStr c1, true, true⟩ rfl rfl
      hb1bracket hb1paren]
  · simp only [loopIter, hcb2]
    rw [process_buffer_listening phrase
      ⟨(' ' :: stripStr c1) ++ ' ' :: stripStr (c1 ++ c2), true, true⟩ rfl rfl
      hb2bracket hb2paren]
  · rw [tokensOf_append_sep, tokensOf_space_cons]

/-- Witness for C9 at two concrete chunks: the word of the first chunk is
contributed twice to the accumulated token sequence. -/
theorem accumulation_duplicates_witness :
    (∀ c ∈ ("hello".toList : Str), c ≠ '\r' ∧ c ≠ '\n' ∧ c ≠ '\x1b' ∧ c ≠ '[' ∧ c ≠ '(') ∧
    tokensOf ((' ' :: stripStr "hello".toList) ++
        ' ' :: stripStr ("hello".toList ++ " world".toList)) =
      ["hello".toList, "hello".toList, "world".toList] := by
  refine ⟨by decide, ?_⟩
  rw [(accumulation_duplicates "hi".toList "hello".toList " world".toList
    (by decide) (by decide)).2.2]
  decide

/-- C10 (implicit): LLMAgent.sendUserMessage is atomic with respect to the
in-memory conversation history. Whenever the call returns none (timeout,
request error, undecodable response, or no non-empty assistant content), the
history equals its value before the call -- the user message appended at the
start has been removed again -- and the three request-exception outcomes
always return none; only on success does the history grow, by exactly the
user message and the assistant response in that order. -/
theorem sendUserMessage_atomic (history : List Message) (user : Str)
    (api : ApiResult) :
    ((sendUserMessage history user api).2 = none →
      (sendUserMessage history user api).1 = history) ∧
    (∀ c, (sendUserMessage history user api).2 = some c →
      (sendUserMessage history user api).1 =
        history ++ [⟨"user".toList, user⟩, ⟨"assistant".toList, c⟩]) ∧
    ((api = ApiResult.timeout ∨ api = ApiResult.requestError ∨
        api = ApiResult.badJson) →
      (sendUserMessage history user api).2 = none) := by
  by_cases hbad : user = [] ∨ user.all isPySpace
  · have hres : sendUserMessage history user api = (history, none) := by
      unfold sendUserMessage
      rw [if_pos hbad]
    rw [hres]
    exact ⟨fun _ => rfl, fun c h => by simp at h, fun _ => rfl⟩
  · have hdrop : (history ++ [(⟨"user".toList, user⟩ : Message)]).dropLast = history := by
      simp
    cases api with
    | timeout =>
      have hres : sendUserMessage history user ApiResult.timeout =
          (history, none) := by
        unfold sendUserMessage
        rw [if_neg hbad]
        show ((history ++ [(⟨"user".toList, user⟩ : Message)]).dropLast, none) =
          (history, none)
        rw [hdrop]
      rw [hres]
      exact ⟨fun _ => rfl, fun c h => by simp at h, fun _ => rfl⟩
    | requestError =>
      have hres : sendUserMessage history user ApiResult.requestError =
          (history, none) := by
        unfold sendUserMessage
        rw [if_neg hbad]
        show ((history ++ [(⟨"user".toList, user⟩ : Message)]).dropLast, none) =
          (history, none)
        rw [hdrop]
      rw [hres]
      exact ⟨fun _ => rfl, fun c h => by simp at h, fun _ => rfl⟩
    | badJson =>
      have hres : sendUserMessage history user ApiResult.badJson =
          (history, none) := by
        unfold sendUserMessage
        rw [if_neg hbad]
        show ((history ++ [(⟨"user".toList, user⟩ : Message)]).dropLast, none) =
          (history, none)
        rw [hdrop]
      rw [hres]
      exact ⟨fun _ => rfl, fun c h => by simp at h, fun _ => rfl⟩
    | unexpected =>
      have hlast : ((history ++ [(⟨"user".toList, user⟩ : Message)]).getLast?).map
          Message.role = some "user".toList := by
        rw [List.getLast?_concat]
        rfl
      have hres : sendUserMessage history user ApiResult.unexpected =
          (history, none) := by
        unfold sendUserMessage
        rw [if_neg hbad]
        show ((if ((history ++ [(⟨"user".toList, user⟩ : Message)]).getLast?).map
              Message.role = some "user".toList
            then (history ++ [(⟨"user".toList, user⟩ : Message)]).dropLast
            else history ++ [(⟨"user".toList, user⟩ : Message)]), none) =
          (history, none)
        rw [if_pos hlast, hdrop]
      rw [hres]
      exact ⟨fun _ => rfl, fun c h => by simp at h, fun _ => rfl⟩
    | ok resp =>
      cases hex : extractContent resp with
      | none =>
        have hres : sendUserMessage history user (ApiResult.ok resp) =
            (history, none) := by
          unfold sendUserMessage
          rw [if_neg hbad]
          show (match extractContent resp with
            | none =>
              ((history ++ [(⟨"user".toList, user⟩ : Message)]).dropLast, none)
            | some c =>
              if c = [] then
                ((history ++ [(⟨"user".toList, user⟩ : Message)]).dropLast, none)
              else (history ++ [(⟨"user".toList, user⟩ : Message)] ++
                  [(⟨"assistant".toList, c⟩ : Message)], some c)) =
            (history, none)
          rw [hex]
          show ((history ++ [(⟨"user".toList, user⟩ : Message)]).dropLast, none) =
            (history, none)
          rw [hdrop]
        rw [hres]
        exact ⟨fun _ => rfl, fun c h => by simp at h, fun _ => rfl⟩
      | some c =>
        by_cases hc : c = []
        · have hres : sendUserMessage history user (ApiResult.ok resp) =
              (history, none) := by
            unfold sendUserMessage
            rw [if_neg hbad]
            show (match extractContent resp with
              | none =>
                ((history ++ [(⟨"user".toList, user⟩ : Message)]).dropLast, none)
              | some c =>
                if c = [] then
                  ((history ++ [(⟨"user".toList, user⟩ : Message)]).dropLast, none)
                else (history ++ [(⟨"user".toList, user⟩ : Message)] ++
                    [(⟨"assistant".toList, c⟩ : Message)], some c)) =
              (history, none)
            rw [hex]
            show (if c = [] then
                ((history ++ [(⟨"user".toList, user⟩ : Message)]).dropLast, none)
              else (history ++ [(⟨"user".toList, user⟩ : Message)] ++
                  [(⟨"assistant".toList, c⟩ : Message)], some c)) =
              (history, none)
            rw [if_pos hc, hdrop]
          rw [hres]
          exact ⟨fun _ => rfl, fun c' h => by simp at h, fun _ => rfl⟩
        · have hres : sendUserMessage history user (ApiResult.ok resp) =
              (history ++ [(⟨"user".toList, user⟩ : Message)] ++
                [(⟨"assistant".toList, c⟩ : Message)], some c) := by
            unfold sendUserMessage
            rw [if_neg hbad]
            show (match extractContent resp with
              | none =>
                ((history ++ [(⟨"user".toList, user⟩ : Message)]).dropLast, none)
              | some c =>
                if c = [] then
                  ((history ++ [(⟨"user".toList, user⟩ : Message)]).dropLast, none)
                else (history ++ [(⟨"user".toList, user⟩ : Message)] ++
                    [(⟨"assistant".toList, c⟩ : Message)], some c)) =
              (history ++ [(⟨"user".toList, user⟩ : Message)] ++
                [(⟨"assistant".toList, c⟩ : Message)], some c)
            rw [hex]
            show (if c = [] then
                ((history ++ [(⟨"user".toList, user⟩ : Message)]).dropLast, none)
              else (history ++ [(⟨"user".toList, user⟩ : Message)] ++
                  [(⟨"assistant".toList, c⟩ : Message)], some c)) =
              (history ++ [(⟨"user".toList, user⟩ : Message)] ++
                [(⟨"assistant".toList, c⟩ : Message)], some c)
            rw [if_neg hc]
          rw [hres]
          refine ⟨fun h => by simp at h, ?_,
            fun hor => by rcases hor with h | h | h <;> exact ApiResult.noConfusion h⟩
          intro c' h
          have hcc : c = c' := by simpa using h
          subst hcc
          simp [List.append_assoc]

/-- Witness for C10: a concrete successful call appends exactly the user and
assistant messages, and a concrete timeout leaves the history unchanged with
no response. -/
theorem sendUserMessage_atomic_witness :
    (sendUserMessage [] "hi".toList ApiResult.timeout).2 = none ∧
    (sendUserMessage [] "hi".toList ApiResult.timeout).1 = [] ∧
    (sendUserMessage [] "hi".toList
        (ApiResult.ok (RespShape.withContent "yo".toList))).1 =
      [⟨"user".toList, "hi".toList⟩, ⟨"assistant".toList, "yo".toList⟩] := by
  have h1 := (sendUserMessage_atomic [] "hi".toList ApiResult.timeout).2.2
    (Or.inl rfl)
  refine ⟨h1, (sendUserMessage_atomic [] "hi".toList ApiResult.timeout).1 h1, ?_⟩
  have h2 := (sendUserMessage_atomic [] "hi".toList
    (ApiResult.ok (RespShape.withContent "yo".toList))).2.1 "yo".toList (by decide)
  simpa using h2

end Agents
